import Mathlib

/-!
Shallow embedding of the `tabular` package (src/tabular.go): a row/cell text
table formatter.  Bytes are modelled as `Nat`, Go strings as `List Nat`.
The third-party dependency `github.com/mattn/go-runewidth` is abstracted by a
parameter `rw : Nat → Nat` giving the display width of a single code point;
the claims only rely on its per-code-point nature and (by hypothesis where
needed) on its range being {0, 1, 2}.
A Go run-time panic is modelled as `Option.none`.
-/

namespace Tabular

/-- `Options` configure a `Buffer` (src/tabular.go).  Per the §6 precondition,
`MinWidth` and `Padding` are non-negative, so they are `Nat` here. -/
structure Options where
  minWidth : Nat
  padding : Nat
  padChar : Nat
  alignRight : Bool
deriving Repr, DecidableEq

/-- Per-cell metadata stored by `AddRow` (Go struct `cell`). -/
structure Cell where
  /-- width in bytes -/
  wb : Nat
  /-- width in visible cells -/
  wc : Nat
  /-- whether to right-align -/
  right : Bool
deriving Repr, DecidableEq

/-- A `Buffer` stores rows of text and prints them as a table. -/
structure Buffer where
  opts : Options
  buf : List Nat
  rows : List (List Cell)
deriving Repr, DecidableEq

/-- `New` constructs a `Buffer` with options; `cmp.Or(opts.PadChar, ' ')`
replaces a zero pad character by a space (byte 32). -/
def new (opts : Options) : Buffer :=
  { opts := { opts with padChar := if opts.padChar = 0 then 32 else opts.padChar },
    buf := [], rows := [] }

/-- A value passed to `AddRow`: an arbitrary Go value (abstracted as its
`fmt.Sprint` bytes) possibly wrapped in the `right`/`left` marker structs. -/
inductive Value where
  | base : List Nat → Value
  | right : Value → Value
  | left : Value → Value
deriving Repr, DecidableEq

/-- `fmt.Sprint` on a `Value`.  The Go wrapper structs `right` and `left`
implement `String()` as `fmt.Sprint` of the wrapped value, so `fmt.Sprint`
unwraps every marker layer down to the concrete value. -/
def sprint : Value → List Nat
  | .base s => s
  | .right v => sprint v
  | .left v => sprint v

/-- Strip every marker layer, leaving the concrete underlying value. -/
def baseOf : Value → Value
  | .base s => .base s
  | .right v => baseOf v
  | .left v => baseOf v

/-- Bytes allowed in the parameter part of a CSI sequence (`[\x30-\x3f]`). -/
def isParamByte (b : Nat) : Bool := 0x30 ≤ b && b ≤ 0x3f

/-- Bytes allowed in the intermediate part of a CSI sequence (`[\x20-\x2f]`). -/
def isInterByte (b : Nat) : Bool := 0x20 ≤ b && b ≤ 0x2f

/-- Terminating bytes of a CSI sequence (`[\x40-\x7e]`). -/
def isFinalByte (b : Nat) : Bool := 0x40 ≤ b && b ≤ 0x7e

/-- A byte run matching the CSI pattern of the spec: ESC, `[`, zero or more
bytes in `0x30–0x3f`, zero or more bytes in `0x20–0x2f`, one terminating
byte in `0x40–0x7e`. -/
def IsCSI (c : List Nat) : Prop :=
  ∃ ps ins f, c = 0x1b :: 0x5b :: (ps ++ ins ++ [f]) ∧
    (∀ x ∈ ps, isParamByte x) ∧ (∀ x ∈ ins, isInterByte x) ∧ isFinalByte f

/-- Try to match the tail of `csiRegexp` (everything after the ESC byte):
`\[[\x30-\x3f]*[\x20-\x2f]*[\x40-\x7e]`.  Returns the suffix following the
match.  Because the three byte classes are pairwise disjoint, the greedy
maximal-run strategy is exactly the regexp's match. -/
def csiMatch : List Nat → Option (List Nat)
  | [] => none
  | b :: rest =>
    if b = 0x5b then
      match (rest.dropWhile isParamByte).dropWhile isInterByte with
      | [] => none
      | f :: r => if isFinalByte f then some r else none
    else none

/-- Scanning loop of the regexp replacement, indexed by a fuel so that the
recursion is structural (the kernel can then evaluate it): at each position,
a match starting there is dropped whole, otherwise the byte is kept.  Every
step consumes at least one byte, so a fuel of the list's length is always
enough; exhausted fuel (unreachable from `stripCSI`) returns the rest
unprocessed. -/
def stripCSIAux : Nat → List Nat → List Nat
  | _, [] => []
  | 0, l => l
  | fuel + 1, b :: bs =>
    if b = 0x1b then
      match csiMatch bs with
      | some r => stripCSIAux fuel r
      | none => b :: stripCSIAux fuel bs
    else b :: stripCSIAux fuel bs

/-- Replace all matches of `csiRegexp` (`\x1b\[[\x30-\x3f]*[\x20-\x2f]*[\x40-\x7e]`)
by the empty string, scanning left to right (Go `ReplaceAllString` with an
empty replacement). -/
def stripCSI (l : List Nat) : List Nat := stripCSIAux l.length l

/-- UTF-8 continuation byte (`0x80–0xbf`). -/
def contByte (b : Nat) : Bool := 0x80 ≤ b && b ≤ 0xbf

/-- Accepted range of the second byte of a multi-byte UTF-8 sequence,
depending on the leading byte (Go `unicode/utf8` accept ranges). -/
def b1Range (b0 b1 : Nat) : Bool :=
  if b0 = 0xe0 then 0xa0 ≤ b1 && b1 ≤ 0xbf
  else if b0 = 0xed then 0x80 ≤ b1 && b1 ≤ 0x9f
  else if b0 = 0xf0 then 0x90 ≤ b1 && b1 ≤ 0xbf
  else if b0 = 0xf4 then 0x80 ≤ b1 && b1 ≤ 0x8f
  else contByte b1

/-- Rune-decoding loop, indexed by a fuel so that the recursion is structural
(the kernel can then evaluate it); every step consumes at least one byte, so
a fuel of the list's length is always enough. -/
def utf8DecodeAux : Nat → List Nat → List Nat
  | _, [] => []
  | 0, _ => []
  | fuel + 1, b0 :: rest =>
    if b0 < 0x80 then b0 :: utf8DecodeAux fuel rest
    else if b0 < 0xc2 ∨ 0xf4 < b0 then 0xfffd :: utf8DecodeAux fuel rest
    else if b0 < 0xe0 then
      match rest with
      | b1 :: r =>
        if contByte b1 then ((b0 % 0x20) * 0x40 + b1 % 0x40) :: utf8DecodeAux fuel r
        else 0xfffd :: utf8DecodeAux fuel (b1 :: r)
      | [] => [0xfffd]
    else if b0 < 0xf0 then
      match rest with
      | b1 :: b2 :: r =>
        if b1Range b0 b1 && contByte b2 then
          ((b0 % 0x10) * 0x1000 + (b1 % 0x40) * 0x40 + b2 % 0x40) :: utf8DecodeAux fuel r
        else 0xfffd :: utf8DecodeAux fuel (b1 :: b2 :: r)
      | [b1] => 0xfffd :: utf8DecodeAux fuel [b1]
      | [] => [0xfffd]
    else
      match rest with
      | b1 :: b2 :: b3 :: r =>
        if b1Range b0 b1 && contByte b2 && contByte b3 then
          ((b0 % 0x8) * 0x40000 + (b1 % 0x40) * 0x1000 + (b2 % 0x40) * 0x40 + b3 % 0x40)
            :: utf8DecodeAux fuel r
        else 0xfffd :: utf8DecodeAux fuel (b1 :: b2 :: b3 :: r)
      | [b1, b2] => 0xfffd :: utf8DecodeAux fuel [b1, b2]
      | [b1] => 0xfffd :: utf8DecodeAux fuel [b1]
      | [] => [0xfffd]

/-- Decode a Go string to its sequence of runes, as a `for range` loop does:
each invalid sequence yields U+FFFD and consumes one byte. -/
def utf8Decode (l : List Nat) : List Nat := utf8DecodeAux l.length l

/-- `runewidth.StringWidth` with the per-rune width abstracted as `rw`:
iterate the runes of the string and sum their widths. -/
def stringWidth (rw : Nat → Nat) (s : List Nat) : Nat :=
  (utf8Decode s).foldl (fun a r => a + rw r) 0

/-- `cellWidth` (src/tabular.go): strip all ANSI CSI sequences, then take the
`runewidth` string width of what remains. -/
def cellWidth (rw : Nat → Nat) (s : List Nat) : Nat :=
  stringWidth rw (stripCSI s)

/-- Process one value of an `AddRow` call (loop body, src/tabular.go lines
90–105): peel one `right` marker, then one `left` marker, format with
`fmt.Sprint`, and record byte length, display width and alignment.  Returns
the cell and the formatted bytes appended to the arena. -/
def mkCell (rw : Nat → Nat) (opts : Options) (v : Value) : Cell × List Nat :=
  let p1 : Value × Bool :=
    match v with
    | .right w => (w, true)
    | _ => (v, opts.alignRight)
  let p2 : Value × Bool :=
    match p1.1 with
    | .left w => (w, false)
    | _ => p1
  let s := sprint p2.1
  ({ wb := s.length, wc := cellWidth rw s, right := p2.2 }, s)

/-- `AddRow` adds a row of values to the buffer. -/
def addRow (rw : Nat → Nat) (b : Buffer) (vs : List Value) : Buffer :=
  let cs := vs.map (mkCell rw b.opts)
  { b with
    buf := b.buf ++ (cs.map Prod.snd).flatten,
    rows := b.rows ++ [cs.map Prod.fst] }

/-- A buffer built by `New` followed by a sequence of `AddRow` calls. -/
def build (rw : Nat → Nat) (opts : Options) (vss : List (List Value)) : Buffer :=
  vss.foldl (addRow rw) (new opts)

/-- Width-merging loop of `WriteTo`: extend/raise the running `widths` slice
with one row (`widths[i] = max(widths[i], c.wc)`, appending for new columns). -/
def mergeWidths : List Nat → List Cell → List Nat
  | ws, [] => ws
  | [], c :: cs => c.wc :: mergeWidths [] cs
  | w :: ws, c :: cs => max w c.wc :: mergeWidths ws cs

/-- First pass of `WriteTo`: fold all rows into the `widths` slice. -/
def rawWidths (rows : List (List Cell)) : List Nat :=
  rows.foldl mergeWidths []

/-- The column widths after raising each to at least `MinWidth`. -/
def resolvedWidths (b : Buffer) : List Nat :=
  (rawWidths b.rows).map (fun w => max w b.opts.minWidth)

/-- `slices.Max`: the maximum of a slice, or `none` (a panic) when empty. -/
def slicesMax : List Nat → Option Nat
  | [] => none
  | w :: ws => some (ws.foldl max w)

/-- Emit one cell (inner loop body of `WriteTo`): inter-cell gap when `j > 0`,
alignment padding before (right) or after (left, non-last) the cell's raw
bytes sliced from the arena at cursor `i`.  Returns the bytes and the new
cursor. -/
def emitCell (padding : Nat) (padBuf : List Nat) (widths : List Nat)
    (buf : List Nat) (rowLen j i : Nat) (c : Cell) : List Nat × Nat :=
  let gap := if 0 < j then padBuf.take padding else []
  let width := widths.getD j 0
  let lead := if c.right then padBuf.take (width - c.wc) else []
  let content := (buf.drop i).take c.wb
  let trail := if !c.right && j < rowLen - 1 then padBuf.take (width - c.wc) else []
  (gap ++ lead ++ content ++ trail, i + c.wb)

/-- Emit the cells of one row starting at cell index `j` and arena cursor `i`. -/
def renderCells (padding : Nat) (padBuf : List Nat) (widths : List Nat)
    (buf : List Nat) (rowLen : Nat) : Nat → Nat → List Cell → List Nat × Nat
  | _, i, [] => ([], i)
  | j, i, c :: cs =>
    let pc := emitCell padding padBuf widths buf rowLen j i c
    let rest := renderCells padding padBuf widths buf rowLen (j + 1) pc.2 cs
    (pc.1 ++ rest.1, rest.2)

/-- Emit one line (with trailing LF) per row, threading the arena cursor. -/
def renderRows (padding : Nat) (padBuf : List Nat) (widths : List Nat)
    (buf : List Nat) : Nat → List (List Cell) → List (List Nat)
  | _, [] => []
  | i, row :: rest =>
    let lc := renderCells padding padBuf widths buf row.length 0 i row
    (lc.1 ++ [10]) :: renderRows padding padBuf widths buf lc.2 rest

/-- Go's conversion `string(b)` of a byte value to a string: the UTF-8
encoding of the code point `b`.  A byte is at most `0xff`, so the encoding
is the byte itself below `0x80` and two bytes otherwise. -/
def encodePadChar (b : Nat) : List Nat :=
  if b < 0x80 then [b] else [0xc0 + b / 0x40, 0x80 + b % 0x40]

/-- The sequence of lines `WriteTo` writes, or `none` when `slices.Max`
panics on the empty `widths` slice (a buffer with no cell at all).  The pad
buffer is `strings.Repeat(string(b.opts.PadChar), maxPad)`: `maxPad` copies
of the UTF-8 encoding of the pad character — for a pad character at or above
`0x80` that is two bytes per copy, and the later byte slices of `padBuf`
split pad characters. -/
def tableLines (b : Buffer) : Option (List (List Nat)) :=
  let widths := resolvedWidths b
  match slicesMax widths with
  | none => none
  | some mw =>
    let maxPad := max mw b.opts.padding
    let padBuf := (List.replicate maxPad (encodePadChar b.opts.padChar)).flatten
    some (renderRows b.opts.padding padBuf widths b.buf 0 b.rows)

/-- Drive the sink over the lines: the `k`-th `Write` call gets response
`resp k line`; the byte count accumulates each reported `n` (also the failing
one), and the first error aborts the loop.  The third component is the trace
of lines actually passed to `Write`. -/
def writeLoop {ε : Type} (resp : Nat → List Nat → Nat × Option ε) :
    Nat → Nat → List (List Nat) → Nat × Option ε × List (List Nat)
  | _, written, [] => (written, none, [])
  | k, written, l :: ls =>
    let ne := resp k l
    match ne.2 with
    | some e => (written + ne.1, some e, [l])
    | none =>
      let rec' := writeLoop resp (k + 1) (written + ne.1) ls
      (rec'.1, rec'.2.1, l :: rec'.2.2)

/-- `WriteTo`: `none` models the `slices.Max` panic; otherwise the byte count,
the error (if any) and the trace of lines passed to the sink. -/
def writeTo {ε : Type} (b : Buffer) (resp : Nat → List Nat → Nat × Option ε) :
    Option (Nat × Option ε × List (List Nat)) :=
  (tableLines b).map (writeLoop resp 0 0)

/-- State-passing form of the method call `b.WriteTo(w)`: the receiver is
returned alongside the result.  No statement of `WriteTo` assigns to `b.opts`,
`b.buf` or `b.rows`, so the receiver comes back unchanged. -/
def writeToSt {ε : Type} (b : Buffer) (resp : Nat → List Nat → Nat × Option ε) :
    Option (Buffer × Nat × Option ε × List (List Nat)) :=
  (writeTo b resp).map (fun r => (b, r))

/-- A sink that accepts every write in full. -/
def goodResp : Nat → List Nat → Nat × Option Empty := fun _ l => (l.length, none)

/-- The byte stream produced on a non-failing sink. -/
def output (b : Buffer) : Option (List Nat) :=
  (tableLines b).map List.flatten

/-- The cells `addRow` builds from one list of values. -/
def rowCells (rw : Nat → Nat) (opts : Options) (vs : List Value) : List Cell :=
  vs.map (fun v => (mkCell rw opts v).1)

/-- The bytes `addRow` appends to the arena for one list of values. -/
def rowBytes (vs : List Value) : List Nat :=
  (vs.map (fun v => sprint v)).flatten

/-- Total recorded byte length of one row's cells. -/
def rowWb (row : List Cell) : Nat := (row.map Cell.wb).sum

/-- Total recorded byte length of all cells, in row order. -/
def rowsWb (rows : List (List Cell)) : Nat := (rows.map rowWb).sum

/-- Walk one row's cells, slicing each cell's recorded byte span out of the
arena at a running offset. -/
def sliceCells (buf : List Nat) : Nat → List Cell → List (List Nat)
  | _, [] => []
  | i, c :: cs => (buf.drop i).take c.wb :: sliceCells buf (i + c.wb) cs

/-- Walk all rows in order, slicing every cell's bytes out of the arena. -/
def sliceRows (buf : List Nat) : Nat → List (List Cell) → List (List (List Nat))
  | _, [] => []
  | i, row :: rest => sliceCells buf i row :: sliceRows buf (i + rowWb row) rest

/-- The alignment `AddRow` actually resolves for a value: one `right` layer is
peeled, then one `left` layer; so a `left` marker at depth one or two forces
left alignment, any other `right`-headed value is right-aligned, and an
unmarked value takes the table default `d`. -/
def specAlign (d : Bool) : Value → Bool
  | .right (.left _) => false
  | .right _ => true
  | .left _ => false
  | .base _ => d

/-- Claim-side column maximum: the maximum `displayWidth` over exactly those
rows that have a cell at index `j`. -/
def colMax (rows : List (List Cell)) (j : Nat) : Nat :=
  (((rows.filter (fun row => decide (j < row.length))).map
    (fun row => (row.map Cell.wc).getD j 0)).foldr max 0)

/-- The number of columns: the maximum row length. -/
def maxLen (rows : List (List Cell)) : Nat :=
  ((rows.map List.length).foldr max 0)

/-- Claim-side description of the bytes emitted for one cell: `padding` pad
characters iff `j > 0`; for a right-aligned cell `W - displayWidth` pad
characters then the raw bytes; for a left-aligned cell the raw bytes then,
only when the cell is not the last of the row, `W - displayWidth` pad
characters. -/
def claimCellBytes (padding : Nat) (padChar : Nat) (W j rowLen : Nat)
    (c : Cell) (content : List Nat) : List Nat :=
  (if 0 < j then List.replicate padding padChar else [])
    ++ (if c.right then List.replicate (W - c.wc) padChar ++ content
        else content ++ (if j < rowLen - 1 then List.replicate (W - c.wc) padChar else []))

/-- Claim-side description of one row's line body (without the final LF). -/
def claimRowBody (padding : Nat) (padChar : Nat) (widths : List Nat)
    (buf : List Nat) (rowLen : Nat) : Nat → Nat → List Cell → List Nat
  | _, _, [] => []
  | j, i, c :: cs =>
    claimCellBytes padding padChar (widths.getD j 0) j rowLen c ((buf.drop i).take c.wb)
      ++ claimRowBody padding padChar widths buf rowLen (j + 1) (i + c.wb) cs

/-- Claim-side description of all emitted lines: each row's body followed by a
single LF, cells sliced from the arena at the running cursor. -/
def claimRows (padding : Nat) (padChar : Nat) (widths : List Nat)
    (buf : List Nat) : Nat → List (List Cell) → List (List Nat)
  | _, [] => []
  | i, row :: rest =>
    (claimRowBody padding padChar widths buf row.length 0 i row ++ [10])
      :: claimRows padding padChar widths buf (i + rowWb row) rest

/-- Claim-side description of the full output of a render. -/
def claimLines (b : Buffer) : List (List Nat) :=
  claimRows b.opts.padding b.opts.padChar (resolvedWidths b) b.buf 0 b.rows

/-- A rune-width function giving every code point width 1 (plain ASCII),
used to evaluate the development on closed instances. -/
def rwOne : Nat → Nat := fun _ => 1

/-- A concrete one-row buffer (`padding 2`, pad char `'.'`, cells `"a"` and
`Right("b")`), used to evaluate the development on closed instances. -/
def bOne : Buffer :=
  build rwOne ⟨0, 2, 46, false⟩ [[.base [97], .right (.base [98])]]

/-- A concrete two-row buffer (default options, rows `"a"` and `"b"`), used
to evaluate the development on closed instances. -/
def bTwo : Buffer :=
  build rwOne ⟨0, 0, 0, false⟩ [[.base [97]], [.base [98]]]

/-- A sink that accepts the first write in full and fails the second with
error code 7, reporting 1 byte written. -/
def respFail : Nat → List Nat → Nat × Option Nat :=
  fun k l => if k = 0 then (l.length, none) else (1, some 7)

/-- A concrete buffer with the two-byte pad character `'·'` (byte `0xb7`),
padding 2 and rows `"a"`, `"b"`, used to evaluate the development on closed
instances. -/
def bPad : Buffer :=
  build rwOne ⟨0, 2, 0xb7, false⟩ [[.base [97], .base [98]]]

/-! ### Lemmas about `AddRow` -/

theorem sprint_baseOf (v : Value) : sprint (baseOf v) = sprint v := by
  induction v with
  | base s => rfl
  | right w ih => simpa [baseOf, sprint] using ih
  | left w ih => simpa [baseOf, sprint] using ih

theorem mkCell_snd (rw : Nat → Nat) (opts : Options) (v : Value) :
    (mkCell rw opts v).2 = sprint v := by
  cases v with
  | base s => rfl
  | left w => simp [mkCell, sprint]
  | right w => cases w <;> simp [mkCell, sprint]

theorem mkCell_fst (rw : Nat → Nat) (opts : Options) (v : Value) :
    (mkCell rw opts v).1 =
      { wb := (sprint v).length, wc := cellWidth rw (sprint v),
        right := specAlign opts.alignRight v } := by
  cases v with
  | base s => rfl
  | left w => simp [mkCell, sprint, specAlign]
  | right w => cases w <;> simp [mkCell, sprint, specAlign]

theorem addRow_opts (rw : Nat → Nat) (b : Buffer) (vs : List Value) :
    (addRow rw b vs).opts = b.opts := rfl

theorem addRow_buf (rw : Nat → Nat) (b : Buffer) (vs : List Value) :
    (addRow rw b vs).buf = b.buf ++ rowBytes vs := by
  have hf : Prod.snd ∘ mkCell rw b.opts = fun v => sprint v :=
    funext (mkCell_snd rw b.opts)
  simp [addRow, rowBytes, List.map_map, hf]

theorem addRow_rows (rw : Nat → Nat) (b : Buffer) (vs : List Value) :
    (addRow rw b vs).rows = b.rows ++ [rowCells rw b.opts vs] := by
  simp [addRow, rowCells, List.map_map, Function.comp]

theorem foldl_addRow_eq (rw : Nat → Nat) (vss : List (List Value)) :
    ∀ b : Buffer, vss.foldl (addRow rw) b =
      ⟨b.opts, b.buf ++ (vss.map rowBytes).flatten,
        b.rows ++ vss.map (rowCells rw b.opts)⟩ := by
  induction vss with
  | nil => intro b; simp
  | cons vs vss ih =>
    intro b
    rw [List.foldl_cons, ih (addRow rw b vs)]
    simp [addRow_opts, addRow_buf, addRow_rows]

theorem build_eq (rw : Nat → Nat) (opts : Options) (vss : List (List Value)) :
    build rw opts vss =
      ⟨(new opts).opts, (vss.map rowBytes).flatten,
        vss.map (rowCells rw (new opts).opts)⟩ := by
  rw [build, foldl_addRow_eq]
  simp [new]

theorem rowWb_rowCells (rw : Nat → Nat) (opts : Options) (vs : List Value) :
    rowWb (rowCells rw opts vs) = (rowBytes vs).length := by
  induction vs with
  | nil => simp [rowWb, rowCells, rowBytes]
  | cons v vs ih =>
    simp [rowWb, rowCells, rowBytes, mkCell_fst] at ih ⊢
    omega

theorem rowsWb_append (rs1 rs2 : List (List Cell)) :
    rowsWb (rs1 ++ rs2) = rowsWb rs1 + rowsWb rs2 := by
  simp [rowsWb]

theorem rowsWb_map_rowCells (rw : Nat → Nat) (opts : Options) (vss : List (List Value)) :
    rowsWb (vss.map (rowCells rw opts)) = ((vss.map rowBytes).flatten).length := by
  induction vss with
  | nil => simp [rowsWb]
  | cons vs vss ih =>
    simp [rowsWb, rowWb_rowCells] at ih ⊢
    simp [ih, rowWb_rowCells]

theorem arena_inv (rw : Nat → Nat) (opts : Options) (vss : List (List Value)) :
    rowsWb (build rw opts vss).rows = (build rw opts vss).buf.length := by
  rw [build_eq]
  simpa using rowsWb_map_rowCells rw (new opts).opts vss

/-! ### Lemmas about slicing the arena -/

theorem sliceCells_spec (rw : Nat → Nat) (opts : Options) :
    ∀ (vs : List Value) (pre post : List Nat),
      sliceCells (pre ++ (rowBytes vs ++ post)) pre.length (rowCells rw opts vs)
        = vs.map (fun v => sprint v) := by
  intro vs
  induction vs with
  | nil => intro pre post; simp [sliceCells, rowCells]
  | cons v vs ih =>
    intro pre post
    have hassoc : pre ++ (rowBytes (v :: vs) ++ post)
        = (pre ++ sprint v) ++ (rowBytes vs ++ post) := by
      simp [rowBytes]
    have h1 : ((pre ++ (rowBytes (v :: vs) ++ post)).drop pre.length).take (sprint v).length
        = sprint v := by
      rw [List.drop_left]
      have hx : rowBytes (v :: vs) ++ post = sprint v ++ (rowBytes vs ++ post) := by
        simp [rowBytes]
      rw [hx, List.take_left]
    have h2 : sliceCells (pre ++ (rowBytes (v :: vs) ++ post))
        (pre.length + (sprint v).length) (rowCells rw opts vs)
        = vs.map (fun v => sprint v) := by
      have hih := ih (pre ++ sprint v) post
      rw [hassoc]
      simpa [List.length_append] using hih
    have hwb : (mkCell rw opts v).1.wb = (sprint v).length := by rw [mkCell_fst]
    simp only [rowCells, List.map_cons] at h2 ⊢
    simp only [sliceCells, hwb]
    rw [h1, h2]

theorem sliceRows_spec (rw : Nat → Nat) (opts : Options) :
    ∀ (vss : List (List Value)) (pre post : List Nat),
      sliceRows (pre ++ ((vss.map rowBytes).flatten ++ post)) pre.length
          (vss.map (rowCells rw opts))
        = vss.map (fun vs => vs.map (fun v => sprint v)) := by
  intro vss
  induction vss with
  | nil => intro pre post; simp [sliceRows]
  | cons vs vss ih =>
    intro pre post
    have hassoc : pre ++ (((vs :: vss).map rowBytes).flatten ++ post)
        = pre ++ (rowBytes vs ++ ((vss.map rowBytes).flatten ++ post)) := by
      simp
    have h1 : sliceCells (pre ++ (((vs :: vss).map rowBytes).flatten ++ post))
        pre.length (rowCells rw opts vs) = vs.map (fun v => sprint v) := by
      rw [hassoc]
      exact sliceCells_spec rw opts vs pre ((vss.map rowBytes).flatten ++ post)
    have h2 : sliceRows (pre ++ (((vs :: vss).map rowBytes).flatten ++ post))
        (pre.length + rowWb (rowCells rw opts vs)) (vss.map (rowCells rw opts))
        = vss.map (fun vs => vs.map (fun v => sprint v)) := by
      have hih := ih (pre ++ rowBytes vs) post
      rw [hassoc, rowWb_rowCells]
      have hl : (pre ++ rowBytes vs).length = pre.length + (rowBytes vs).length := by
        simp
      rw [hl] at hih
      simpa [List.append_assoc] using hih
    simp only [List.map_cons] at h1 h2 ⊢
    simp only [sliceRows]
    rw [h1, h2]

/-! ### Lemmas about the rendering loops -/

theorem renderCells_cursor (pad : Nat) (padBuf : List Nat) (widths : List Nat)
    (buf : List Nat) (rowLen : Nat) :
    ∀ (row : List Cell) (j i : Nat),
      (renderCells pad padBuf widths buf rowLen j i row).2 = i + rowWb row := by
  intro row
  induction row with
  | nil => intro j i; simp [renderCells, rowWb]
  | cons c cs ih =>
    intro j i
    simp only [renderCells, emitCell]
    rw [ih]
    simp [rowWb]
    omega

theorem slice_stable (buf ext : List Nat) (i n : Nat) (h : i + n ≤ buf.length) :
    ((buf ++ ext).drop i).take n = (buf.drop i).take n := by
  rw [List.drop_append_eq_append_drop]
  have hi : i - buf.length = 0 := by omega
  rw [hi, List.drop_zero]
  have hn : n ≤ (buf.drop i).length := by
    rw [List.length_drop]
    omega
  rw [List.take_append_of_le_length hn]

theorem emitCell_bufExt (pad : Nat) (padBuf : List Nat) (widths : List Nat)
    (buf ext : List Nat) (rowLen j i : Nat) (c : Cell) (h : i + c.wb ≤ buf.length) :
    emitCell pad padBuf widths (buf ++ ext) rowLen j i c
      = emitCell pad padBuf widths buf rowLen j i c := by
  simp only [emitCell]
  rw [slice_stable buf ext i c.wb h]

theorem renderCells_bufExt (pad : Nat) (padBuf : List Nat) (widths : List Nat)
    (buf ext : List Nat) (rowLen : Nat) :
    ∀ (row : List Cell) (j i : Nat), i + rowWb row ≤ buf.length →
      renderCells pad padBuf widths (buf ++ ext) rowLen j i row
        = renderCells pad padBuf widths buf rowLen j i row := by
  intro row
  induction row with
  | nil => intro j i _; simp [renderCells]
  | cons c cs ih =>
    intro j i h
    have hwb : rowWb (c :: cs) = c.wb + rowWb cs := by simp [rowWb]
    simp only [renderCells]
    rw [emitCell_bufExt pad padBuf widths buf ext rowLen j i c (by omega)]
    rw [ih (j + 1) (emitCell pad padBuf widths buf rowLen j i c).2 (by simp [emitCell]; omega)]

theorem renderRows_append (pad : Nat) (padBuf : List Nat) (widths : List Nat)
    (buf : List Nat) :
    ∀ (rs1 rs2 : List (List Cell)) (i : Nat),
      renderRows pad padBuf widths buf i (rs1 ++ rs2)
        = renderRows pad padBuf widths buf i rs1
            ++ renderRows pad padBuf widths buf (i + rowsWb rs1) rs2 := by
  intro rs1
  induction rs1 with
  | nil => intro rs2 i; simp [renderRows, rowsWb]
  | cons r rs ih =>
    intro rs2 i
    simp only [List.cons_append, renderRows, List.append_eq]
    rw [renderCells_cursor, ih]
    have : i + rowWb r + rowsWb rs = i + rowsWb (r :: rs) := by
      simp [rowsWb]; omega
    rw [this]

theorem renderRows_bufExt (pad : Nat) (padBuf : List Nat) (widths : List Nat)
    (buf ext : List Nat) :
    ∀ (rows : List (List Cell)) (i : Nat), i + rowsWb rows ≤ buf.length →
      renderRows pad padBuf widths (buf ++ ext) i rows
        = renderRows pad padBuf widths buf i rows := by
  intro rows
  induction rows with
  | nil => intro i _; simp [renderRows]
  | cons r rs ih =>
    intro i h
    have hwb : rowsWb (r :: rs) = rowWb r + rowsWb rs := by simp [rowsWb]
    simp only [renderRows]
    rw [renderCells_bufExt pad padBuf widths buf ext r.length r 0 i (by omega)]
    rw [renderCells_cursor]
    rw [ih (i + rowWb r) (by omega)]

theorem renderRows_length (pad : Nat) (padBuf : List Nat) (widths : List Nat)
    (buf : List Nat) :
    ∀ (rows : List (List Cell)) (i : Nat),
      (renderRows pad padBuf widths buf i rows).length = rows.length := by
  intro rows
  induction rows with
  | nil => intro i; simp [renderRows]
  | cons r rs ih => intro i; simp [renderRows, ih]

/-! ### Lemmas about `getD` and folded maxima -/

theorem getD_map_lt {α β : Type} (f : α → β) (d : β) :
    ∀ (l : List α) (j : Nat) (hj : j < l.length),
      (l.map f).getD j d = f (l.get ⟨j, hj⟩) := by
  intro l
  induction l with
  | nil => intro j hj; simp at hj
  | cons x xs ih =>
    intro j hj
    cases j with
    | zero => simp
    | succ j =>
      simp only [List.map_cons, List.getD_cons_succ, List.get]
      exact ih j (by simpa using hj)

theorem getD_len_le {α : Type} (d : α) (l : List α) (j : Nat) (hj : l.length ≤ j) :
    l.getD j d = d := by
  simp [List.getD_eq_getElem?_getD, List.getElem?_eq_none hj]

theorem le_foldl_max (l : List Nat) : ∀ b : Nat, b ≤ l.foldl max b := by
  induction l with
  | nil => intro b; simp
  | cons x xs ih =>
    intro b
    calc b ≤ max b x := Nat.le_max_left b x
    _ ≤ xs.foldl max (max b x) := ih (max b x)

theorem mem_le_foldl_max (l : List Nat) : ∀ (b x : Nat), x ∈ l → x ≤ l.foldl max b := by
  induction l with
  | nil => intro b x hx; simp at hx
  | cons y ys ih =>
    intro b x hx
    rcases List.mem_cons.mp hx with h | h
    · subst h
      calc x ≤ max b x := Nat.le_max_right b x
      _ ≤ ys.foldl max (max b x) := le_foldl_max ys (max b x)
    · exact ih (max b y) x h

theorem mem_le_foldr_max (l : List Nat) : ∀ x : Nat, x ∈ l → x ≤ l.foldr max 0 := by
  induction l with
  | nil => intro x hx; simp at hx
  | cons y ys ih =>
    intro x hx
    rcases List.mem_cons.mp hx with h | h
    · subst h; exact Nat.le_max_left x (ys.foldr max 0)
    · exact le_trans (ih x h) (Nat.le_max_right y (ys.foldr max 0))

theorem slicesMax_le {ws : List Nat} {m : Nat} (h : slicesMax ws = some m) :
    ∀ j : Nat, ws.getD j 0 ≤ m := by
  intro j
  rcases ws with _ | ⟨w, ws⟩
  · simp [slicesMax] at h
  · simp only [slicesMax, Option.some_inj] at h
    subst h
    rcases Nat.lt_or_ge j (w :: ws).length with hj | hj
    · cases j with
      | zero => simpa using le_foldl_max ws w
      | succ j =>
        simp only [List.getD_cons_succ]
        rcases Nat.lt_or_ge j ws.length with hj' | hj'
        · have hg : ws.getD j 0 = ws.get ⟨j, hj'⟩ := by
            simp [List.getD_eq_getElem?_getD, List.getElem?_eq_getElem hj', List.get_eq_getElem]
          rw [hg]
          exact mem_le_foldl_max ws w _ (List.get_mem ws j hj')
        · rw [getD_len_le 0 ws j hj']; exact Nat.zero_le _
    · rw [getD_len_le 0 _ j hj]; exact Nat.zero_le _

theorem getD_eq_get {α : Type} (d : α) (l : List α) (j : Nat) (hj : j < l.length) :
    l.getD j d = l.get ⟨j, hj⟩ := by
  simp [List.getD_eq_getElem?_getD, List.getElem?_eq_getElem hj, List.get_eq_getElem]

/-! ### Characterisation of the column widths -/

theorem mergeWidths_length : ∀ (row : List Cell) (ws : List Nat),
    (mergeWidths ws row).length = max ws.length row.length := by
  intro row
  induction row with
  | nil => intro ws; simp [mergeWidths]
  | cons c cs ih =>
    intro ws
    cases ws with
    | nil => simp [mergeWidths, ih]
    | cons w ws' => simp [mergeWidths, ih]; omega

theorem mergeWidths_getD : ∀ (row : List Cell) (ws : List Nat) (j : Nat),
    (mergeWidths ws row).getD j 0 = max (ws.getD j 0) ((row.map Cell.wc).getD j 0) := by
  intro row
  induction row with
  | nil =>
    intro ws j
    simp [mergeWidths, getD_len_le]
  | cons c cs ih =>
    intro ws j
    cases ws with
    | nil =>
      cases j with
      | zero => simp [mergeWidths]
      | succ j => simpa [mergeWidths] using ih [] j
    | cons w ws' =>
      cases j with
      | zero => simp [mergeWidths]
      | succ j => simpa [mergeWidths] using ih ws' j

theorem maxLen_cons (r : List Cell) (rows : List (List Cell)) :
    maxLen (r :: rows) = max r.length (maxLen rows) := by
  simp [maxLen]

theorem colMax_cons (r : List Cell) (rows : List (List Cell)) (j : Nat) :
    colMax (r :: rows) j = max ((r.map Cell.wc).getD j 0) (colMax rows j) := by
  by_cases hj : j < r.length
  · simp [colMax, List.filter_cons, hj]
  · have h0 : (r.map Cell.wc).getD j 0 = 0 :=
      getD_len_le 0 _ j (by simpa using Nat.le_of_not_lt hj)
    have hd : decide (j < r.length) = false := by simpa using hj
    rw [colMax, colMax, List.filter_cons, hd, if_neg (by simp : ¬ (false = true))]
    omega

theorem foldl_merge_length : ∀ (rows : List (List Cell)) (ws : List Nat),
    (rows.foldl mergeWidths ws).length = max ws.length (maxLen rows) := by
  intro rows
  induction rows with
  | nil => intro ws; simp [maxLen]
  | cons r rows ih =>
    intro ws
    rw [List.foldl_cons, ih, mergeWidths_length, maxLen_cons]
    omega

theorem foldl_merge_getD : ∀ (rows : List (List Cell)) (ws : List Nat) (j : Nat),
    (rows.foldl mergeWidths ws).getD j 0 = max (ws.getD j 0) (colMax rows j) := by
  intro rows
  induction rows with
  | nil => intro ws j; simp [colMax]
  | cons r rows ih =>
    intro ws j
    rw [List.foldl_cons, ih, mergeWidths_getD, colMax_cons]
    omega

theorem rawWidths_length (rows : List (List Cell)) :
    (rawWidths rows).length = maxLen rows := by
  simp [rawWidths, foldl_merge_length]

theorem rawWidths_getD (rows : List (List Cell)) (j : Nat) :
    (rawWidths rows).getD j 0 = colMax rows j := by
  rw [rawWidths, foldl_merge_getD]
  simp

theorem resolvedWidths_length (b : Buffer) :
    (resolvedWidths b).length = maxLen b.rows := by
  simp [resolvedWidths, rawWidths_length]

theorem resolvedWidths_getD_lt (b : Buffer) (j : Nat) (hj : j < maxLen b.rows) :
    (resolvedWidths b).getD j 0 = max (colMax b.rows j) b.opts.minWidth := by
  have hlen : j < (rawWidths b.rows).length := by rw [rawWidths_length]; exact hj
  rw [resolvedWidths, getD_map_lt (fun w => max w b.opts.minWidth) 0 _ j hlen,
    ← getD_eq_get 0 _ j hlen, rawWidths_getD]

theorem rawWidths_append (rs1 rs2 : List (List Cell)) (j : Nat) :
    (rawWidths (rs1 ++ rs2)).getD j 0 = max ((rawWidths rs1).getD j 0) (colMax rs2 j) := by
  rw [rawWidths, List.foldl_append, foldl_merge_getD, rawWidths]

theorem colMax_ge (rows : List (List Cell)) (row : List Cell) (j : Nat)
    (hmem : row ∈ rows) (hj : j < row.length) :
    (row.map Cell.wc).getD j 0 ≤ colMax rows j := by
  apply mem_le_foldr_max
  apply List.mem_map.mpr
  refine ⟨row, ?_, rfl⟩
  exact List.mem_filter.mpr ⟨hmem, by simpa using hj⟩

theorem rowlen_le_maxLen (rows : List (List Cell)) (row : List Cell) (h : row ∈ rows) :
    row.length ≤ maxLen rows :=
  mem_le_foldr_max _ _ (List.mem_map.mpr ⟨row, h, rfl⟩)

theorem cellwc_le_width (b : Buffer) (row : List Cell) (j : Nat)
    (hmem : row ∈ b.rows) (hj : j < row.length) :
    (row.get ⟨j, hj⟩).wc ≤ (resolvedWidths b).getD j 0 := by
  have hml : j < maxLen b.rows := lt_of_lt_of_le hj (rowlen_le_maxLen b.rows row hmem)
  rw [resolvedWidths_getD_lt b j hml]
  have h1 : (row.map Cell.wc).getD j 0 ≤ colMax b.rows j := colMax_ge b.rows row j hmem hj
  have h2 : (row.map Cell.wc).getD j 0 = (row.get ⟨j, hj⟩).wc := getD_map_lt Cell.wc 0 row j hj
  omega

theorem maxLen_const (L : Nat) :
    ∀ rows : List (List Cell), rows ≠ [] → (∀ r ∈ rows, r.length = L) →
      maxLen rows = L := by
  intro rows
  induction rows with
  | nil => intro h _; exact absurd rfl h
  | cons r rs ih =>
    intro _ hall
    rw [maxLen_cons, hall r (List.mem_cons_self r rs)]
    cases rs with
    | nil => simp [maxLen]
    | cons r2 rs2 =>
      rw [ih (by simp) (fun x hx => hall x (List.mem_cons_of_mem r hx))]
      omega

theorem eq_of_getD : ∀ (l1 l2 : List Nat), l1.length = l2.length →
    (∀ j, j < l1.length → l1.getD j 0 = l2.getD j 0) → l1 = l2 := by
  intro l1
  induction l1 with
  | nil =>
    intro l2 hlen _
    cases l2 with
    | nil => rfl
    | cons y ys => simp at hlen
  | cons x xs ih =>
    intro l2 hlen h
    cases l2 with
    | nil => simp at hlen
    | cons y ys =>
      have h0 : x = y := by simpa using h 0 (by simp)
      have ht : xs = ys := by
        refine ih ys (by simpa using hlen) ?_
        intro j hj
        simpa using h (j + 1) (by simpa using hj)
      rw [h0, ht]

/-! ### The emitted lines match the claim-side description -/

theorem take_replicate_of_le (pc : Nat) {mp n : Nat} (h : n ≤ mp) :
    (List.replicate mp pc).take n = List.replicate n pc := by
  rw [List.take_replicate]
  congr 1
  omega

theorem emitCell_claim (pad mp : Nat) (pc : Nat) (widths : List Nat) (buf : List Nat)
    (rowLen j i : Nat) (c : Cell) (hpad : pad ≤ mp) (hw : widths.getD j 0 ≤ mp) :
    (emitCell pad (List.replicate mp pc) widths buf rowLen j i c).1
      = claimCellBytes pad pc (widths.getD j 0) j rowLen c ((buf.drop i).take c.wb) := by
  have h1 : (List.replicate mp pc).take pad = List.replicate pad pc :=
    take_replicate_of_le pc hpad
  have h2 : (List.replicate mp pc).take (widths.getD j 0 - c.wc)
      = List.replicate (widths.getD j 0 - c.wc) pc :=
    take_replicate_of_le pc (by omega)
  simp only [emitCell, claimCellBytes, h1, h2]
  by_cases hr : c.right
  · simp [hr]
  · by_cases hj : j < rowLen - 1 <;> simp [hr, hj]

theorem renderCells_claim (pad mp : Nat) (pc : Nat) (widths : List Nat) (buf : List Nat)
    (rowLen : Nat) (hpad : pad ≤ mp) (hws : ∀ k, widths.getD k 0 ≤ mp) :
    ∀ (row : List Cell) (j i : Nat),
      (renderCells pad (List.replicate mp pc) widths buf rowLen j i row).1
        = claimRowBody pad pc widths buf rowLen j i row := by
  intro row
  induction row with
  | nil => intro j i; simp [renderCells, claimRowBody]
  | cons c cs ih =>
    intro j i
    simp only [renderCells, claimRowBody]
    rw [emitCell_claim pad mp pc widths buf rowLen j i c hpad (hws j)]
    have hsnd : (emitCell pad (List.replicate mp pc) widths buf rowLen j i c).2 = i + c.wb := rfl
    rw [hsnd, ih (j + 1) (i + c.wb)]

theorem renderRows_claim (pad mp : Nat) (pc : Nat) (widths : List Nat) (buf : List Nat)
    (hpad : pad ≤ mp) (hws : ∀ k, widths.getD k 0 ≤ mp) :
    ∀ (rows : List (List Cell)) (i : Nat),
      renderRows pad (List.replicate mp pc) widths buf i rows
        = claimRows pad pc widths buf i rows := by
  intro rows
  induction rows with
  | nil => intro i; simp [renderRows, claimRows]
  | cons r rs ih =>
    intro i
    simp only [renderRows, claimRows]
    rw [renderCells_claim pad mp pc widths buf r.length hpad hws, renderCells_cursor,
      ih (i + rowWb r)]

theorem claimRows_lastLF (pad : Nat) (pc : Nat) (widths : List Nat) (buf : List Nat) :
    ∀ (rows : List (List Cell)) (i : Nat) (l : List Nat),
      l ∈ claimRows pad pc widths buf i rows → l.getLast? = some 10 := by
  intro rows
  induction rows with
  | nil => intro i l hl; simp [claimRows] at hl
  | cons r rs ih =>
    intro i l hl
    rcases List.mem_cons.mp hl with h | h
    · subst h; exact List.getLast?_concat _
    · exact ih _ l h

theorem encodePadChar_ascii (pc : Nat) (h : pc < 0x80) :
    encodePadChar pc = [pc] := by
  simp [encodePadChar, h]

theorem padBuf_ascii (n pc : Nat) (h : pc < 0x80) :
    (List.replicate n (encodePadChar pc)).flatten = List.replicate n pc := by
  rw [encodePadChar_ascii pc h]
  induction n with
  | zero => rfl
  | succ n ih => simp [List.replicate_succ, ih]

theorem tableLines_eq (b : Buffer) (mw : Nat)
    (h : slicesMax (resolvedWidths b) = some mw) :
    tableLines b = some (renderRows b.opts.padding
      ((List.replicate (max mw b.opts.padding) (encodePadChar b.opts.padChar)).flatten)
      (resolvedWidths b) b.buf 0 b.rows) := by
  simp [tableLines, h]

theorem tableLines_some_inv (b : Buffer) (ls : List (List Nat))
    (h : tableLines b = some ls) :
    ∃ mw, slicesMax (resolvedWidths b) = some mw ∧
      ls = renderRows b.opts.padding
        ((List.replicate (max mw b.opts.padding) (encodePadChar b.opts.padChar)).flatten)
        (resolvedWidths b) b.buf 0 b.rows := by
  cases hm : slicesMax (resolvedWidths b) with
  | none => rw [tableLines, hm] at h; simp at h
  | some mw =>
    refine ⟨mw, rfl, ?_⟩
    rw [tableLines, hm] at h
    simpa using h.symm

/-! ### The sink-driving loop -/

theorem range_map_sum_succ (f : Nat → Nat) (n : Nat) :
    ((List.range (n + 1)).map f).sum
      = f 0 + ((List.range n).map (fun k => f (k + 1))).sum := by
  rw [List.range_succ_eq_map]
  simp [List.map_map, Function.comp_def]

theorem writeLoop_ok {ε : Type} (resp : Nat → List Nat → Nat × Option ε) :
    ∀ (ls : List (List Nat)) (k0 w : Nat),
      (∀ k, k < ls.length → (resp (k0 + k) (ls.getD k [])).2 = none) →
      writeLoop resp k0 w ls
        = (w + ((List.range ls.length).map (fun k => (resp (k0 + k) (ls.getD k [])).1)).sum,
            none, ls) := by
  intro ls
  induction ls with
  | nil => intro k0 w _; simp [writeLoop]
  | cons l ls ih =>
    intro k0 w h
    have h0 : (resp k0 l).2 = none := by simpa using h 0 (by simp)
    cases hr : resp k0 l with
    | mk n e =>
      rw [hr] at h0
      simp only at h0
      subst h0
      have hpre : ∀ k, k < ls.length → (resp (k0 + 1 + k) (ls.getD k [])).2 = none := by
        intro k hk
        rw [show k0 + 1 + k = k0 + (k + 1) from by omega]
        simpa using h (k + 1) (by simpa using hk)
      simp only [writeLoop, hr, List.length_cons]
      rw [ih (k0 + 1) (w + n) hpre]
      rw [range_map_sum_succ (fun k => (resp (k0 + k) ((l :: ls).getD k [])).1) ls.length]
      have hshift : (fun k => (resp (k0 + (k + 1)) ((l :: ls).getD (k + 1) [])).1)
          = (fun k => (resp (k0 + 1 + k) (ls.getD k [])).1) := by
        funext k
        rw [show k0 + (k + 1) = k0 + 1 + k from by omega]
        simp
      simp only [List.getD_cons_succ, List.getD_cons_zero, hr] at hshift ⊢
      rw [hshift]
      simp [Nat.add_assoc, hr]

theorem writeLoop_err {ε : Type} (resp : Nat → List Nat → Nat × Option ε) :
    ∀ (ls : List (List Nat)) (k0 w k : Nat) (e : ε), k < ls.length →
      (resp (k0 + k) (ls.getD k [])).2 = some e →
      (∀ j, j < k → (resp (k0 + j) (ls.getD j [])).2 = none) →
      writeLoop resp k0 w ls
        = (w + ((List.range (k + 1)).map (fun j => (resp (k0 + j) (ls.getD j [])).1)).sum,
            some e, ls.take (k + 1)) := by
  intro ls
  induction ls with
  | nil => intro k0 w k e hk _ _; simp at hk
  | cons l ls ih =>
    intro k0 w k e hk herr hpre
    cases k with
    | zero =>
      simp only [List.getD_cons_zero, Nat.add_zero] at herr
      cases hr : resp k0 l with
      | mk n e' =>
        rw [hr] at herr
        simp only at herr
        subst herr
        simp only [writeLoop, hr]
        simp [range_map_sum_succ, hr]
    | succ k =>
      have h0 : (resp k0 l).2 = none := by simpa using hpre 0 (by omega)
      cases hr : resp k0 l with
      | mk n e' =>
        rw [hr] at h0
        simp only at h0
        subst h0
        have herr' : (resp (k0 + 1 + k) (ls.getD k [])).2 = some e := by
          rw [show k0 + 1 + k = k0 + (k + 1) from by omega]
          simpa using herr
        have hpre' : ∀ j, j < k → (resp (k0 + 1 + j) (ls.getD j [])).2 = none := by
          intro j hj
          rw [show k0 + 1 + j = k0 + (j + 1) from by omega]
          simpa using hpre (j + 1) (by omega)
        simp only [writeLoop, hr]
        rw [ih (k0 + 1) (w + n) k e (by simpa using hk) herr' hpre']
        rw [range_map_sum_succ (fun j => (resp (k0 + j) ((l :: ls).getD j [])).1) (k + 1)]
        have hshift : (fun j => (resp (k0 + (j + 1)) ((l :: ls).getD (j + 1) [])).1)
            = (fun j => (resp (k0 + 1 + j) (ls.getD j [])).1) := by
          funext j
          rw [show k0 + (j + 1) = k0 + 1 + j from by omega]
          simp
        simp only [List.getD_cons_succ, List.getD_cons_zero, hr] at hshift ⊢
        rw [hshift]
        simp [Nat.add_assoc, List.take_succ_cons, hr]

/-! ### CSI stripping -/

theorem interNotParam (x : Nat) (h : isInterByte x = true) : isParamByte x = false := by
  cases hx : isParamByte x
  · rfl
  · exfalso
    simp [isParamByte] at hx
    simp [isInterByte] at h
    omega

theorem finalNotParam (x : Nat) (h : isFinalByte x = true) : isParamByte x = false := by
  cases hx : isParamByte x
  · rfl
  · exfalso
    simp [isParamByte] at hx
    simp [isFinalByte] at h
    omega

theorem finalNotInter (x : Nat) (h : isFinalByte x = true) : isInterByte x = false := by
  cases hx : isInterByte x
  · rfl
  · exfalso
    simp [isInterByte] at hx
    simp [isFinalByte] at h
    omega

theorem csiMatch_of_csi (ps ins : List Nat) (f : Nat) (s : List Nat)
    (hps : ∀ x ∈ ps, isParamByte x) (hins : ∀ x ∈ ins, isInterByte x)
    (hf : isFinalByte f) :
    csiMatch (0x5b :: (ps ++ (ins ++ f :: s))) = some s := by
  have h1 : (ps ++ (ins ++ f :: s)).dropWhile isParamByte = ins ++ f :: s := by
    rw [List.dropWhile_append_of_pos hps]
    cases ins with
    | nil =>
      simp only [List.nil_append]
      exact List.dropWhile_cons_of_neg (by simp [finalNotParam f hf])
    | cons i0 ins' =>
      simp only [List.cons_append]
      exact List.dropWhile_cons_of_neg
        (by simp [interNotParam i0 (hins i0 (List.mem_cons_self i0 ins'))])
  have h2 : (ins ++ f :: s).dropWhile isInterByte = f :: s := by
    rw [List.dropWhile_append_of_pos hins]
    exact List.dropWhile_cons_of_neg (by simp [finalNotInter f hf])
  simp only [csiMatch, if_pos rfl, h1, h2]
  simp [hf]

theorem csiMatch_some_lt (l t : List Nat) (h : csiMatch l = some t) :
    t.length < l.length := by
  have hlen : (((l.drop 1).dropWhile isParamByte).dropWhile isInterByte).length ≤
      (l.drop 1).length :=
    le_trans (List.dropWhile_sublist _).length_le (List.dropWhile_sublist _).length_le
  rcases l with _ | ⟨b2, rest⟩
  · simp [csiMatch] at h
  · simp only [List.drop_succ_cons, List.drop_zero] at hlen
    simp only [csiMatch] at h
    split at h
    · split at h
      · exact absurd h (by simp)
      · rename_i heq
        split at h
        · cases h
          rw [heq] at hlen
          simp only [List.length_cons] at hlen ⊢
          omega
        · exact absurd h (by simp)
    · exact absurd h (by simp)

theorem stripCSIAux_fuel :
    ∀ (fuel : Nat) (l : List Nat), l.length ≤ fuel → stripCSIAux fuel l = stripCSI l := by
  intro fuel
  induction fuel using Nat.strong_induction_on with
  | _ fuel ih =>
    intro l hl
    cases l with
    | nil => cases fuel <;> rfl
    | cons b bs =>
      cases fuel with
      | zero => simp at hl
      | succ n =>
        have hbs : bs.length ≤ n := by simpa using hl
        rw [stripCSI]
        simp only [List.length_cons]
        show stripCSIAux (n + 1) (b :: bs) = stripCSIAux (bs.length + 1) (b :: bs)
        simp only [stripCSIAux]
        by_cases hb : b = 0x1b
        · rw [if_pos hb, if_pos hb]
          cases hm : csiMatch bs with
          | none =>
            simp only []
            rw [ih n (by omega) bs hbs, ih bs.length (by omega) bs le_rfl]
          | some r =>
            have hr : r.length < bs.length := csiMatch_some_lt bs r hm
            simp only []
            rw [ih n (by omega) r (by omega), ih bs.length (by omega) r (by omega)]
        · rw [if_neg hb, if_neg hb]
          rw [ih n (by omega) bs hbs, ih bs.length (by omega) bs le_rfl]

theorem stripCSI_nil : stripCSI [] = [] := rfl

theorem stripCSI_cons_ne (b : Nat) (bs : List Nat) (h : ¬ b = 0x1b) :
    stripCSI (b :: bs) = b :: stripCSI bs := by
  rw [stripCSI]
  simp only [List.length_cons, stripCSIAux, h, if_neg]
  rw [stripCSIAux_fuel bs.length bs le_rfl]
  simp [h]

theorem stripCSI_noESC (p : List Nat) (t : List Nat) (hp : (0x1b : Nat) ∉ p) :
    stripCSI (p ++ t) = p ++ stripCSI t := by
  induction p with
  | nil => simp
  | cons b bs ih =>
    have hb : ¬ b = 0x1b := fun h => hp (h ▸ List.mem_cons_self b bs)
    rw [List.cons_append, stripCSI_cons_ne b (bs ++ t) hb,
      ih (fun h => hp (List.mem_cons_of_mem b h)), List.cons_append]

theorem stripCSI_csi (c s : List Nat) (hc : IsCSI c) :
    stripCSI (c ++ s) = stripCSI s := by
  obtain ⟨ps, ins, f, rfl, hps, hins, hf⟩ := hc
  have hm : csiMatch (0x5b :: (ps ++ (ins ++ f :: s))) = some s :=
    csiMatch_of_csi ps ins f s hps hins hf
  have hshape : (0x1b :: 0x5b :: (ps ++ ins ++ [f])) ++ s
      = 0x1b :: (0x5b :: (ps ++ (ins ++ f :: s))) := by
    simp
  have hlt : s.length ≤ (ps ++ (ins ++ f :: s)).length := by
    have h := csiMatch_some_lt _ _ hm
    simp only [List.length_cons, List.length_append] at h ⊢
    omega
  rw [hshape, stripCSI]
  simp only [List.length_cons, stripCSIAux, if_pos rfl, hm]
  exact stripCSIAux_fuel _ s (le_trans hlt (Nat.le_succ _))

theorem foldl_add_eq_sum (rw : Nat → Nat) :
    ∀ (l : List Nat) (a : Nat), l.foldl (fun acc r => acc + rw r) a = a + (l.map rw).sum := by
  intro l
  induction l with
  | nil => intro a; simp
  | cons x xs ih =>
    intro a
    rw [List.foldl_cons, ih]
    simp
    omega

theorem stringWidth_eq_sum (rw : Nat → Nat) (s : List Nat) :
    stringWidth rw s = ((utf8Decode s).map rw).sum := by
  rw [stringWidth, foldl_add_eq_sum]
  simp

theorem colMax_append (rs1 rs2 : List (List Cell)) (j : Nat) :
    colMax (rs1 ++ rs2) j = max (colMax rs1 j) (colMax rs2 j) := by
  have h := rawWidths_append rs1 rs2 j
  rw [rawWidths_getD, rawWidths_getD] at h
  exact h

theorem renderCells_congr_widths (pad : Nat) (padBuf buf : List Nat) (rowLen : Nat)
    (widths widths' : List Nat) :
    ∀ (row : List Cell) (j i : Nat),
      (∀ k, j ≤ k → k < j + row.length → widths.getD k 0 = widths'.getD k 0) →
      renderCells pad padBuf widths buf rowLen j i row
        = renderCells pad padBuf widths' buf rowLen j i row := by
  intro row
  induction row with
  | nil => intro j i _; simp [renderCells]
  | cons c cs ih =>
    intro j i h
    have hj : widths.getD j 0 = widths'.getD j 0 := h j le_rfl (by simp)
    simp only [renderCells, emitCell, hj]
    rw [ih (j + 1) (i + c.wb) (fun k hk1 hk2 => h k (by omega) (by simp at hk2 ⊢; omega))]

/-! ### The claims -/

/-- C1, counterexample: with the table default left alignment, the value
`Right(Left("a"))` is stored with `right = false`, i.e. it resolves to LEFT
alignment — the claim says the outermost marker (`Right`) should win. -/
theorem c1_outer_marker_counterexample :
    (mkCell rwOne ⟨0, 0, 32, false⟩
      (Value.right (Value.left (Value.base [97])))).1.right = false := rfl

/-- C1 (amended): `AddRow` peels exactly one outer `Right` marker and then at
most one `Left` marker: the resolved alignment is `specAlign` — so
`Left(Right(v))` resolves to its outer marker (left), `Right(Right(... v))`
resolves right, an unmarked value takes the table default, but
`Right(Left(v))` resolves LEFT (the inner `Left` overrides the outer
`Right`); the stored text, recorded byte length and recorded display width
always come from the fully-unwrapped concrete value, as if the bare value had
been passed. -/
theorem c1_alignment_resolution (rw : Nat → Nat) (opts : Options) (v : Value) :
    (mkCell rw opts v).1.right = specAlign opts.alignRight v
    ∧ (mkCell rw opts v).2 = sprint (baseOf v)
    ∧ (mkCell rw opts v).1.wb = (sprint (baseOf v)).length
    ∧ (mkCell rw opts v).1.wc = cellWidth rw (sprint (baseOf v)) := by
  rw [sprint_baseOf]
  simp [mkCell_fst, mkCell_snd]

/-- C2, code bug: `WriteTo` does not fail only through the sink.  On a buffer
with zero rows — and likewise on a buffer whose only row has zero cells —
the `widths` slice is empty and `slices.Max(widths)` panics (modelled as
`none`), before any write is attempted, although `MinWidth` and `Padding`
satisfy the §6 precondition and the sink never fails. -/
theorem c2_empty_buffer_panics :
    writeTo (ε := Unit) (new ⟨0, 0, 0, false⟩) (fun _ l => (l.length, none)) = none
    ∧ writeTo (ε := Unit) (addRow rwOne (new ⟨0, 0, 0, false⟩) [])
        (fun _ l => (l.length, none)) = none := ⟨rfl, rfl⟩

/-- C3: the resolved width slice has one entry per column index that occurs
in some row (its length is the maximum row length); entry `j` is the maximum
recorded display width over exactly the rows having a cell at index `j`,
raised to at least `MinWidth`; and the line rendered for a row only depends
on the widths of the row's own column indices — a short row gets no
placeholder cells for columns beyond its length. -/
theorem c3_column_widths (b : Buffer) :
    ((resolvedWidths b).length = maxLen b.rows
      ∧ ∀ j, j < maxLen b.rows →
          (resolvedWidths b).getD j 0 = max (colMax b.rows j) b.opts.minWidth)
    ∧ ∀ (pad : Nat) (padBuf buf : List Nat) (i : Nat) (row : List Cell)
        (widths widths' : List Nat),
        (∀ k, k < row.length → widths.getD k 0 = widths'.getD k 0) →
        renderCells pad padBuf widths buf row.length 0 i row
          = renderCells pad padBuf widths' buf row.length 0 i row := by
  refine ⟨⟨resolvedWidths_length b, fun j hj => resolvedWidths_getD_lt b j hj⟩, ?_⟩
  intro pad padBuf buf i row widths widths' h
  exact renderCells_congr_widths pad padBuf buf row.length widths widths' row 0 i
    (fun k _ hk2 => h k (by omega))

/-- C10: after any sequence of `AddRow` calls the recorded byte lengths
partition the shared arena exactly: their total is the arena length, walking
the arena with a running offset yields for each cell exactly the formatted
text of its fully-unwrapped value, and the cell slices flattened back
together reproduce the whole arena (so the render cursor always slices in
bounds). -/
theorem c10_arena_partition (rw : Nat → Nat) (opts : Options) (vss : List (List Value)) :
    rowsWb (build rw opts vss).rows = (build rw opts vss).buf.length
    ∧ sliceRows (build rw opts vss).buf 0 (build rw opts vss).rows
        = vss.map (fun vs => vs.map (fun v => sprint (baseOf v)))
    ∧ ((sliceRows (build rw opts vss).buf 0 (build rw opts vss).rows).map
        (fun r => r.flatten)).flatten = (build rw opts vss).buf := by
  have hb := build_eq rw opts vss
  have hslice : sliceRows (build rw opts vss).buf 0 (build rw opts vss).rows
      = vss.map (fun vs => vs.map (fun v => sprint v)) := by
    rw [hb]
    simpa using sliceRows_spec rw (new opts).opts vss [] []
  refine ⟨arena_inv rw opts vss, ?_, ?_⟩
  · rw [hslice]
    simp [sprint_baseOf]
  · rw [hslice, hb]
    have hf : rowBytes = fun x => (List.map (fun v => sprint v) x).flatten := rfl
    rw [hf]
    simp [List.map_map, Function.comp_def]

/-- C4, counterexample: with the pad character `'·'` (byte `0xb7`) and
padding 2, the inter-cell gap of the rendered line `a·b` is the two BYTES
`0xc2 0xb7` — ONE pad character, the byte-sliced prefix of the UTF-8-encoded
pad buffer — not the two pad characters the claim requires (the claim-side
format would be `97, 183, 183, 98, 10`), so the claim as stated fails. -/
theorem c4_multibyte_padchar_counterexample :
    tableLines bPad = some [[97, 194, 183, 98, 10]]
    ∧ claimLines bPad = [[97, 183, 183, 98, 10]]
    ∧ ([[97, 194, 183, 98, 10]] : List (List Nat)) ≠ [[97, 183, 183, 98, 10]] := by
  refine ⟨by decide, by decide, by decide⟩

/-- C4 (amended): provided the configured pad character is a single-byte
(ASCII, below `0x80`) character — the default space is — each output line is
exactly as the claim describes it: for each cell at index `j`, `padding` pad
characters iff `j > 0`, then for a right-aligned cell `W - displayWidth` pad
characters followed by the raw bytes, for a left-aligned cell the raw bytes
followed by `W - displayWidth` pad characters only when the cell is not the
last of its row (so no line ever ends in padding), and every line ends with
a single LF.  (For a pad character at or above `0x80`, Go's `string(PadChar)`
encodes it as two bytes and the byte-sliced pad runs split characters.) -/
theorem c4_line_format (b : Buffer) (ls : List (List Nat))
    (hpc : b.opts.padChar < 0x80) (h : tableLines b = some ls) :
    ls = claimLines b ∧ ∀ l ∈ ls, l.getLast? = some 10 := by
  obtain ⟨mw, hmw, hls⟩ := tableLines_some_inv b ls h
  rw [padBuf_ascii (max mw b.opts.padding) b.opts.padChar hpc] at hls
  have heq : renderRows b.opts.padding
      (List.replicate (max mw b.opts.padding) b.opts.padChar)
      (resolvedWidths b) b.buf 0 b.rows
      = claimRows b.opts.padding b.opts.padChar (resolvedWidths b) b.buf 0 b.rows :=
    renderRows_claim b.opts.padding (max mw b.opts.padding) b.opts.padChar
      (resolvedWidths b) b.buf (Nat.le_max_right _ _)
      (fun k => le_trans (slicesMax_le hmw k) (Nat.le_max_left _ _)) b.rows 0
  subst hls
  refine ⟨by rw [claimLines]; exact heq, ?_⟩
  intro l hl
  rw [heq] at hl
  exact claimRows_lastLF _ _ _ _ b.rows 0 l hl

/-- C4 witness: the format theorem evaluated on the concrete buffer `bOne`
(“a”, Right “b”, padding 2, ASCII pad char `'.'`): its one line is
`a..b` + LF. -/
theorem c4_line_format_witness :
    ([[97, 46, 46, 98, 10]] : List (List Nat)) = claimLines bOne
    ∧ ∀ l ∈ ([[97, 46, 46, 98, 10]] : List (List Nat)), l.getLast? = some 10 :=
  c4_line_format bOne [[97, 46, 46, 98, 10]] (by decide) (by decide)

/-- C5: width measurement per the claim — a byte run matching the CSI pattern
is excluded from the measured text entirely (it contributes zero width and
splits around it), the measured width is the sum of the abstract per-code-point
widths of the remaining decoded code points (each at most 2 when the
classification is bounded by 2), while a cell's recorded byte length is the
full formatted text's length and the arena stores that original text,
escape runs included. -/
theorem c5_width_measurement (rw : Nat → Nat) (p c s : List Nat)
    (hp : (0x1b : Nat) ∉ p) (hc : IsCSI c) :
    stripCSI (p ++ c ++ s) = p ++ stripCSI s
    ∧ cellWidth rw (p ++ c ++ s) = stringWidth rw (p ++ stripCSI s)
    ∧ (∀ t : List Nat, stringWidth rw t = ((utf8Decode t).map rw).sum)
    ∧ ((∀ r, rw r ≤ 2) → ∀ x ∈ (utf8Decode (stripCSI (p ++ c ++ s))).map rw, x ≤ 2)
    ∧ (∀ (b : Buffer) (vs : List Value),
        (addRow rw b vs).buf = b.buf ++ rowBytes vs
        ∧ rowCells rw b.opts vs = vs.map (fun v =>
            { wb := (sprint v).length, wc := cellWidth rw (sprint v),
              right := specAlign b.opts.alignRight v })) := by
  have h1 : stripCSI (p ++ c ++ s) = p ++ stripCSI s := by
    rw [List.append_assoc, stripCSI_noESC p (c ++ s) hp, stripCSI_csi c s hc]
  refine ⟨h1, by rw [cellWidth, h1], fun t => stringWidth_eq_sum rw t, ?_, ?_⟩
  · intro hb x hx
    obtain ⟨r, _, rfl⟩ := List.mem_map.mp hx
    exact hb r
  · intro b vs
    refine ⟨addRow_buf rw b vs, ?_⟩
    rw [rowCells]
    exact List.map_congr_left (fun v _ => mkCell_fst rw b.opts v)

/-- C5 witness: the measurement theorem evaluated at `"a" ++ ESC[1m ++ "b"`
with the all-ones width classification. -/
theorem c5_width_measurement_witness :
    stripCSI ([97] ++ [27, 91, 49, 109] ++ [98]) = [97] ++ stripCSI [98]
    ∧ cellWidth rwOne ([97] ++ [27, 91, 49, 109] ++ [98])
        = stringWidth rwOne ([97] ++ stripCSI [98])
    ∧ (∀ t : List Nat, stringWidth rwOne t = ((utf8Decode t).map rwOne).sum)
    ∧ ((∀ r, rwOne r ≤ 2) →
        ∀ x ∈ (utf8Decode (stripCSI ([97] ++ [27, 91, 49, 109] ++ [98]))).map rwOne, x ≤ 2)
    ∧ (∀ (b : Buffer) (vs : List Value),
        (addRow rwOne b vs).buf = b.buf ++ rowBytes vs
        ∧ rowCells rwOne b.opts vs = vs.map (fun v =>
            { wb := (sprint v).length, wc := cellWidth rwOne (sprint v),
              right := specAlign b.opts.alignRight v })) :=
  c5_width_measurement rwOne [97] [27, 91, 49, 109] [98] (by decide)
    ⟨[49], [], 109, rfl, by decide, by decide, by decide⟩

/-- C6: with the lines of a render in hand, if every sink write succeeds then
`WriteTo` returns the sum of the byte counts the sink reported with no error,
having passed every line; and if the sink first fails at write `k` with error
`e`, `WriteTo` returns that error verbatim together with the byte counts
reported up to and including the failing write, and no line after index `k`
is ever passed to the sink. -/
theorem c6_sink_errors {ε : Type} (b : Buffer) (resp : Nat → List Nat → Nat × Option ε)
    (ls : List (List Nat)) (h : tableLines b = some ls) :
    ((∀ k, k < ls.length → (resp k (ls.getD k [])).2 = none) →
      writeTo b resp
        = some ((((List.range ls.length).map (fun k => (resp k (ls.getD k [])).1)).sum,
            none, ls)))
    ∧ (∀ (k : Nat) (e : ε), k < ls.length →
        (resp k (ls.getD k [])).2 = some e →
        (∀ j, j < k → (resp j (ls.getD j [])).2 = none) →
        writeTo b resp
          = some ((((List.range (k + 1)).map (fun j => (resp j (ls.getD j [])).1)).sum,
              some e, ls.take (k + 1)))) := by
  constructor
  · intro hok
    have hw := writeLoop_ok resp ls 0 0 (fun k hk => by simpa using hok k hk)
    simp only [Nat.zero_add] at hw
    rw [writeTo, h]
    exact congrArg some hw
  · intro k e hk herr hpre
    have hw := writeLoop_err resp ls 0 0 k e hk (by simpa using herr)
      (fun j hj => by simpa using hpre j hj)
    simp only [Nat.zero_add] at hw
    rw [writeTo, h]
    exact congrArg some hw

/-- C6 witness: on the two-row buffer `bTwo` with a sink that accepts the
first write (2 bytes) and fails the second with error 7 after 1 byte,
`WriteTo` returns count 3, error 7, and both lines were attempted but no
more. -/
theorem c6_sink_errors_witness :
    writeTo bTwo respFail = some (3, some 7, [[97, 10], [98, 10]]) := by
  have h := (c6_sink_errors (ε := Nat) bTwo respFail [[97, 10], [98, 10]]
      (by decide)).2 1 7 (by decide) (by decide)
    (fun j hj => by
      have hj0 : j = 0 := by omega
      subst hj0
      decide)
  rw [h]
  decide

/-- C7: `WriteTo` is a pure read — the receiver comes back unchanged
(configuration, row metadata and arena all equal), and invoking it again on
the returned state gives the identical result, byte for byte. -/
theorem c7_pure_reread {ε : Type} (b : Buffer) (resp : Nat → List Nat → Nat × Option ε)
    (out : Buffer × Nat × Option ε × List (List Nat)) (h : writeToSt b resp = some out) :
    out.1 = b ∧ writeToSt out.1 resp = writeToSt b resp := by
  have h1 : out.1 = b := by
    rw [writeToSt] at h
    cases hw : writeTo b resp with
    | none => rw [hw] at h; simp at h
    | some r =>
      rw [hw] at h
      have h2 : (b, r) = out := by simpa using h
      rw [← h2]
  exact ⟨h1, by rw [h1]⟩

/-- C7 witness: re-rendering the concrete buffer `bOne` returns the buffer
unchanged and the identical output. -/
theorem c7_pure_reread_witness :
    ((bOne, 5, (none : Option Nat), [[97, 46, 46, 98, 10]]) :
        Buffer × Nat × Option Nat × List (List Nat)).1 = bOne
    ∧ writeToSt (ε := Nat) ((bOne, 5, (none : Option Nat), [[97, 46, 46, 98, 10]]) :
        Buffer × Nat × Option Nat × List (List Nat)).1
        (fun _ l => (l.length, (none : Option Nat)))
      = writeToSt (ε := Nat) bOne (fun _ l => (l.length, (none : Option Nat))) :=
  c7_pure_reread (ε := Nat) bOne (fun _ l => (l.length, (none : Option Nat)))
    (bOne, 5, none, [[97, 46, 46, 98, 10]]) (by decide)

/-- C8: starting from a rendered buffer, appending rows such that every row
of the resulting table has the same column count and no resolved column width
grew, a second render reproduces the first render's lines unchanged as a
byte-for-byte prefix, followed by exactly one new line per appended row. -/
theorem c8_monotonic_accumulation (rw : Nat → Nat) (opts : Options)
    (vss vss' : List (List Value)) (L : Nat) (ls1 : List (List Nat))
    (h1 : tableLines (build rw opts vss) = some ls1)
    (hL : ∀ row ∈ (vss'.foldl (addRow rw) (build rw opts vss)).rows, row.length = L)
    (hW : ∀ j, j < (resolvedWidths (vss'.foldl (addRow rw) (build rw opts vss))).length →
        (resolvedWidths (vss'.foldl (addRow rw) (build rw opts vss))).getD j 0
          ≤ (resolvedWidths (build rw opts vss)).getD j 0) :
    ∃ tail, tableLines (vss'.foldl (addRow rw) (build rw opts vss)) = some (ls1 ++ tail)
      ∧ tail.length = vss'.length
      ∧ output (vss'.foldl (addRow rw) (build rw opts vss))
          = some (ls1.flatten ++ tail.flatten) := by
  set b1 := build rw opts vss with hb1
  set b2 := vss'.foldl (addRow rw) b1 with hb2
  have hkey := foldl_addRow_eq rw vss' b1
  have hopts : b2.opts = b1.opts := by rw [hb2, hkey]
  have hbuf : b2.buf = b1.buf ++ (vss'.map rowBytes).flatten := by rw [hb2, hkey]
  have hrows : b2.rows = b1.rows ++ vss'.map (rowCells rw b1.opts) := by rw [hb2, hkey]
  obtain ⟨mw, hmw, hls⟩ := tableLines_some_inv b1 ls1 h1
  have hw1len : (resolvedWidths b1).length = maxLen b1.rows := resolvedWidths_length b1
  have hwpos : 0 < (resolvedWidths b1).length := by
    cases hne : resolvedWidths b1 with
    | nil => rw [hne] at hmw; simp [slicesMax] at hmw
    | cons a as => simp [hne]
  have hml1pos : 0 < maxLen b1.rows := by omega
  have hrows1ne : b1.rows ≠ [] := by
    intro hnil
    rw [hnil] at hml1pos
    simp [maxLen] at hml1pos
  have hallL1 : ∀ r ∈ b1.rows, r.length = L := by
    intro r hr
    exact hL r (by rw [hrows]; exact List.mem_append_left _ hr)
  have hml1 : maxLen b1.rows = L := maxLen_const L b1.rows hrows1ne hallL1
  have hrows2ne : b2.rows ≠ [] := by
    intro hx
    rw [hrows] at hx
    exact hrows1ne (List.append_eq_nil.mp hx).1
  have hml2 : maxLen b2.rows = L := maxLen_const L b2.rows hrows2ne hL
  have hlen12 : (resolvedWidths b2).length = (resolvedWidths b1).length := by
    rw [resolvedWidths_length, resolvedWidths_length, hml1, hml2]
  have hge : ∀ j, j < (resolvedWidths b2).length →
      (resolvedWidths b1).getD j 0 ≤ (resolvedWidths b2).getD j 0 := by
    intro j hj
    have hj2 : j < maxLen b2.rows := by rw [← resolvedWidths_length]; exact hj
    have hj1 : j < maxLen b1.rows := by
      rw [hml1]
      rw [hml2] at hj2
      exact hj2
    rw [resolvedWidths_getD_lt b1 j hj1, resolvedWidths_getD_lt b2 j hj2, hopts]
    have hcm : colMax b1.rows j ≤ colMax b2.rows j := by
      rw [hrows, colMax_append]
      exact Nat.le_max_left _ _
    omega
  have hweq : resolvedWidths b2 = resolvedWidths b1 :=
    eq_of_getD _ _ hlen12 (fun j hj => le_antisymm (hW j hj) (hge j (by omega)))
  have hmw2 : slicesMax (resolvedWidths b2) = some mw := by rw [hweq]; exact hmw
  have ht2 := tableLines_eq b2 mw hmw2
  have hinv : rowsWb b1.rows = b1.buf.length := by
    rw [hb1]
    exact arena_inv rw opts vss
  rw [hopts, hweq, hrows, hbuf] at ht2
  rw [renderRows_append] at ht2
  rw [renderRows_bufExt b1.opts.padding
    ((List.replicate (max mw b1.opts.padding) (encodePadChar b1.opts.padChar)).flatten)
    (resolvedWidths b1) b1.buf ((vss'.map rowBytes).flatten) b1.rows 0
    (by rw [Nat.zero_add, hinv])] at ht2
  have hcur : 0 + rowsWb b1.rows = b1.buf.length := by rw [Nat.zero_add, hinv]
  rw [hcur, ← hls] at ht2
  refine ⟨renderRows b1.opts.padding
      ((List.replicate (max mw b1.opts.padding) (encodePadChar b1.opts.padChar)).flatten)
      (resolvedWidths b1) (b1.buf ++ (vss'.map rowBytes).flatten) b1.buf.length
      (vss'.map (rowCells rw b1.opts)), ht2, ?_, ?_⟩
  · rw [renderRows_length]
    simp
  · rw [output, ht2]
    simp

/-- C8 witness: appending the row `"b"` to a rendered one-row table `"a"`
(equal column counts, no width growth) reproduces the first line and appends
one line. -/
theorem c8_monotonic_accumulation_witness :
    ∃ tail, tableLines ([[Value.base [98]]].foldl (addRow rwOne)
        (build rwOne ⟨0, 0, 0, false⟩ [[Value.base [97]]])) = some ([[97, 10]] ++ tail)
      ∧ tail.length = [[Value.base [98]]].length
      ∧ output ([[Value.base [98]]].foldl (addRow rwOne)
          (build rwOne ⟨0, 0, 0, false⟩ [[Value.base [97]]]))
          = some (([[97, 10]] : List (List Nat)).flatten ++ tail.flatten) :=
  c8_monotonic_accumulation rwOne ⟨0, 0, 0, false⟩ [[Value.base [97]]]
    [[Value.base [98]]] 1 [[97, 10]] (by decide) (by decide) (by decide)

/-- C9: every padding run the renderer slices out of the reusable pad buffer
fits in it — the inter-cell run has length `padding ≤ max mw padding`, every
alignment run has length `widths[j] - wc ≤ max mw padding` (and `wc ≤
widths[j]`), and a slice of that length of the pad buffer is exactly that
many pad characters. -/
theorem c9_pad_runs (b : Buffer) (mw : Nat)
    (h : slicesMax (resolvedWidths b) = some mw) :
    b.opts.padding ≤ max mw b.opts.padding
    ∧ (∀ row ∈ b.rows, ∀ (j : Nat) (hj : j < row.length),
        (row.get ⟨j, hj⟩).wc ≤ (resolvedWidths b).getD j 0
        ∧ (resolvedWidths b).getD j 0 - (row.get ⟨j, hj⟩).wc ≤ max mw b.opts.padding)
    ∧ (∀ n, n ≤ max mw b.opts.padding →
        (List.replicate (max mw b.opts.padding) b.opts.padChar).take n
          = List.replicate n b.opts.padChar) := by
  refine ⟨Nat.le_max_right _ _, ?_, fun n hn => take_replicate_of_le _ hn⟩
  intro row hrow j hj
  have h1 := cellwc_le_width b row j hrow hj
  have h2 : (resolvedWidths b).getD j 0 ≤ mw := slicesMax_le h j
  have h3 : mw ≤ max mw b.opts.padding := Nat.le_max_left _ _
  exact ⟨h1, by omega⟩

/-- C9 witness: the pad-run bounds evaluated on the concrete buffer `bOne`,
whose maximum resolved column width is 1. -/
theorem c9_pad_runs_witness :
    bOne.opts.padding ≤ max 1 bOne.opts.padding
    ∧ (∀ row ∈ bOne.rows, ∀ (j : Nat) (hj : j < row.length),
        (row.get ⟨j, hj⟩).wc ≤ (resolvedWidths bOne).getD j 0
        ∧ (resolvedWidths bOne).getD j 0 - (row.get ⟨j, hj⟩).wc
            ≤ max 1 bOne.opts.padding)
    ∧ (∀ n, n ≤ max 1 bOne.opts.padding →
        (List.replicate (max 1 bOne.opts.padding) bOne.opts.padChar).take n
          = List.replicate n bOne.opts.padChar) :=
  c9_pad_runs bOne 1 (by decide)

end Tabular
